import Mathlib

/-!
Shallow embedding of the ownership-resolution and approval-satisfaction engine
of the advanced-codeowners app: the pattern-based requirement resolver
(`findApprovers`), the per-reviewer satisfaction checker
(`checkReviewerSatisfaction`), the review collapse (`getAllApprovedReviews`)
and the quorum evaluator (`checkAllApprovalCriteriaMet`), translated from the
JavaScript source, together with theorems settling the specification claims.
-/

namespace AdvancedCodeowners

/-! ### Path pattern matching (model of the `minimatch` calls in `findApprovers`)

A pattern is split on `/` into segments; `**` as a whole segment matches any
number of path segments (including zero), `*` and `?` inside a segment match
character sequences / single characters within one segment, and (as in
`minimatch`'s default options) a wildcard never matches a segment that starts
with a dot unless the pattern segment itself starts with a literal dot. -/

/-- Within-segment glob matching: `*` matches any character sequence
(equivalently, some suffix of the segment matches the rest of the pattern),
`?` any single character, anything else is literal. -/
def globMatch : List Char → List Char → Bool
  | [], s => s.isEmpty
  | '*' :: ps, s => s.tails.any (fun t => globMatch ps t)
  | '?' :: ps, s =>
    match s with
    | [] => false
    | _ :: cs => globMatch ps cs
  | p :: ps, s =>
    match s with
    | [] => false
    | c :: cs => (p == c) && globMatch ps cs

/-- One path segment against one pattern segment, with the hidden-file rule:
a segment starting with `.` is only matched by a pattern segment that starts
with a literal `.`. -/
def segMatch (pat seg : List Char) : Bool :=
  match seg with
  | '.' :: _ =>
    match pat with
    | '.' :: _ => globMatch pat seg
    | _ => false
  | _ => globMatch pat seg

/-- The suffixes of a segment list reachable by dropping leading non-hidden
segments: exactly the pieces a `**` segment may leave for the rest of the
pattern. -/
def cleanSuffixes : List (List Char) → List (List (List Char))
  | [] => [[]]
  | s :: rest =>
    (s :: rest) :: (if s.head? = some '.' then [] else cleanSuffixes rest)

/-- Segment-list matching: a `**` pattern segment absorbs any number of
(non-hidden) path segments, including zero; any other pattern segment matches
exactly one path segment. -/
def matchSegs : List (List Char) → List (List Char) → Bool
  | [], segs => segs.isEmpty
  | p :: ps, segs =>
    if p = ['*', '*'] then (cleanSuffixes segs).any (fun suf => matchSegs ps suf)
    else
      match segs with
      | [] => false
      | s :: rest => segMatch p s && matchSegs ps rest

/-- Split a path into its `/`-separated segments. -/
def splitSegs : List Char → List (List Char)
  | [] => [[]]
  | '/' :: cs => [] :: splitSegs cs
  | c :: cs =>
    match splitSegs cs with
    | seg :: rest => (c :: seg) :: rest
    | [] => [[c]]

/-- `minimatch(filePath, pattern)` as used by `findApprovers`. -/
def minimatch (filePath pattern : String) : Bool :=
  matchSegs (splitSegs pattern.toList) (splitSegs filePath.toList)

/-! ### Models of the JavaScript `Set` and `Map` containers

A JS `Set` is a duplicate-free list in insertion order; `Set.add` appends when
the element is new.  A JS `Map` is an association list with unique keys;
`Map.set` replaces the value in place when the key exists and appends
otherwise; iteration is in insertion order. -/

/-- `Set.add`: append the element unless already present. -/
def insertUnique (l : List String) (x : String) : List String :=
  if x ∈ l then l else l ++ [x]

/-- Add every element of `xs` to the set `l`, in order. -/
def unionUnique (l xs : List String) : List String :=
  xs.foldl insertUnique l

/-- `Map.set`: replace in place when the key exists, append otherwise. -/
def mapSet (m : List (String × List String)) (k : String) (v : List String) :
    List (String × List String) :=
  if m.any (fun e => e.1 == k) then m.map (fun e => if e.1 == k then (k, v) else e)
  else m ++ [(k, v)]

/-- `map.get(k) || d`: the bound value when the key is present, `d` otherwise. -/
def mapGetD (m : List (String × List String)) (k : String) (d : List String) : List String :=
  match m.find? (fun e => e.1 == k) with
  | some e => e.2
  | none => d

/-! ### Configuration model (the parsed approvers YAML)

`owners` / `team-owners` entries may be a single string or an array of strings
(the source checks `Array.isArray` and `typeof === 'string'`); the enclosing
`if (x.owners)` makes an absent field — and, by JS truthiness, an empty
string — contribute nothing. -/

/-- An owners field of the configuration: a single string or an array. -/
inductive OwnersField where
  | single (s : String)
  | multiple (l : List String)
deriving DecidableEq, Repr

/-- The identities an owners field contributes (an absent field, and by JS
truthiness an empty-string field, contribute none). -/
def ownersList : Option OwnersField → List String
  | none => []
  | some (.single s) => if s = "" then [] else [s]
  | some (.multiple l) => l

/-- Add the identities of an owners field to an accumulator set, as the source
does with `Set.add` / `forEach(add)`. -/
def addOwners (acc : List String) : Option OwnersField → List String
  | none => acc
  | some (.single s) => if s = "" then acc else insertUnique acc s
  | some (.multiple l) => l.foldl insertUnique acc

/-- One entry of the `patterns` section. -/
structure PatternConfig where
  pattern : String
  owners : Option OwnersField := none
  teamOwners : Option OwnersField := none
deriving DecidableEq, Repr

/-- The `fallback` section. -/
structure FallbackConfig where
  owners : Option OwnersField := none
  teamOwners : Option OwnersField := none
deriving DecidableEq, Repr

/-- The parsed approvers configuration. -/
structure ApproversConfig where
  patterns : Option (List PatternConfig) := none
  fallback : Option FallbackConfig := none
deriving DecidableEq, Repr

/-! ### Requirement resolver (`findApprovers`) -/

/-- The body of the pattern loop of `findApprovers`: a matching pattern entry
unions its owners into both accumulators, a non-matching one is skipped. -/
def patStep (filePath : String) (acc : List String × List String) (pc : PatternConfig) :
    List String × List String :=
  if minimatch filePath pc.pattern then
    (addOwners acc.1 pc.owners, addOwners acc.2 pc.teamOwners)
  else acc

/-- The accumulators after the pattern loop of `findApprovers` for one file:
the union of the individual owners and of the team owners of every pattern
entry whose pattern matches the file path. -/
def matchedOwners (config : ApproversConfig) (filePath : String) :
    List String × List String :=
  match config.patterns with
  | none => ([], [])
  | some pats => pats.foldl (patStep filePath) ([], [])

/-- The resolved owners for one file: the matched union, or — when both
accumulators are empty and a fallback is configured — the fallback's owners. -/
def resolveFileOwners (config : ApproversConfig) (filePath : String) :
    List String × List String :=
  if (matchedOwners config filePath).1 = [] ∧ (matchedOwners config filePath).2 = [] then
    match config.fallback with
    | some fb => (addOwners [] fb.owners, addOwners [] fb.teamOwners)
    | none => matchedOwners config filePath
  else matchedOwners config filePath

/-- The body of the file loop of `findApprovers`: store the resolved owners of
one file into both maps. -/
def findStep (config : ApproversConfig)
    (maps : List (String × List String) × List (String × List String)) (filePath : String) :
    List (String × List String) × List (String × List String) :=
  (mapSet maps.1 filePath (resolveFileOwners config filePath).1,
   mapSet maps.2 filePath (resolveFileOwners config filePath).2)

/-- `findApprovers`: build the per-file individual-approver and team-approver
maps over the files of the change set. -/
def findApprovers (files : List String) (config : ApproversConfig) :
    List (String × List String) × List (String × List String) :=
  files.foldl (findStep config) ([], [])

/-- The two-rule policy of the specification's Scenario A: a `pdf-team` rule
for `backend/**/*.pdf` and an `alice`/`backend-team` rule for `backend/**/*`. -/
def scenarioConfig : ApproversConfig :=
  { patterns := some
      [ { pattern := "backend/**/*.pdf", teamOwners := some (.multiple ["pdf-team"]) },
        { pattern := "backend/**/*", owners := some (.multiple ["alice"]),
          teamOwners := some (.multiple ["backend-team"]) } ] }

/-! ### Satisfaction checker (`checkReviewerSatisfaction`)

Group membership resolution is modelled as a function
`resolve : team → reviewer → Option state`; `none` stands for a lookup that
fails (the `catch` branch of the source), `some s` for a lookup that reports
membership state `s`.  Only `some "active"` puts the team into the reviewer's
memberships. -/

/-- The result of `checkReviewerSatisfaction`. -/
structure SatisfactionResult where
  satisfiedFiles : List String
  satisfiedAsIndividual : Bool
  satisfiedAsTeamMember : List String
deriving DecidableEq, Repr

/-- The set of all team approvers across the team map (insertion order). -/
def allTeamApprovers (fileTeamApproverMap : List (String × List String)) : List String :=
  fileTeamApproverMap.foldl (fun acc e => unionUnique acc e.2) []

/-- The sequence of membership lookups one invocation of
`checkReviewerSatisfaction` performs: the loop issues exactly one lookup per
element of the team-approver set, in order. -/
def membershipLookups (fileTeamApproverMap : List (String × List String)) : List String :=
  allTeamApprovers fileTeamApproverMap

/-- The reviewer's resolved memberships: the teams whose lookup succeeded with
state `active`. -/
def teamMembershipsOf (resolve : String → String → Option String) (reviewer : String)
    (teams : List String) : List String :=
  teams.filter (fun team => resolve team reviewer == some "active")

/-- The inner loop adding, for a file satisfied via a team, every required team
the reviewer is a member of, deduplicated. -/
def addSatisfiedTeams (memberships acc teamApprovers : List String) : List String :=
  teamApprovers.foldl
    (fun acc team =>
      if memberships.contains team && !acc.contains team then acc ++ [team] else acc)
    acc

/-- The body of the per-file loop of `checkReviewerSatisfaction`: the file is
satisfied when the reviewer is an individual approver of it or a member of one
of its approving teams. -/
def satStep (reviewer : String) (ftm : List (String × List String))
    (memberships : List String) (res : SatisfactionResult) (e : String × List String) :
    SatisfactionResult :=
  if e.2.contains reviewer || (mapGetD ftm e.1 []).any (fun t => memberships.contains t) then
    { satisfiedFiles := res.satisfiedFiles ++ [e.1]
      satisfiedAsIndividual := res.satisfiedAsIndividual || e.2.contains reviewer
      satisfiedAsTeamMember :=
        if (mapGetD ftm e.1 []).any (fun t => memberships.contains t) then
          addSatisfiedTeams memberships res.satisfiedAsTeamMember (mapGetD ftm e.1 [])
        else res.satisfiedAsTeamMember }
  else res

/-- `checkReviewerSatisfaction`: resolve the reviewer's memberships over the
team-approver set once, then scan every file of the approver map. -/
def checkReviewerSatisfaction (resolve : String → String → Option String) (reviewer : String)
    (fileApproverMap fileTeamApproverMap : List (String × List String)) : SatisfactionResult :=
  let memberships := teamMembershipsOf resolve reviewer (allTeamApprovers fileTeamApproverMap)
  fileApproverMap.foldl (satStep reviewer fileTeamApproverMap memberships) ⟨[], false, []⟩

/-! ### Review collapse (`getAllApprovedReviews`) -/

/-- One submitted review: reviewer login, decision state, submission time. -/
structure Review where
  user : String
  state : String
  submittedAt : Nat
deriving DecidableEq, Repr

/-- One step of the latest-review-per-user collapse: keep the stored record
unless the incoming one is strictly later. -/
def updateLatest (m : List (String × Review)) (review : Review) : List (String × Review) :=
  match m.find? (fun e => e.1 == review.user) with
  | none => m ++ [(review.user, review)]
  | some e =>
    if review.submittedAt > e.2.submittedAt then
      m.map (fun e2 => if e2.1 == review.user then (review.user, review) else e2)
    else m

/-- The `latestReviewsByUser` map of `getAllApprovedReviews`. -/
def latestReviewsByUser (reviews : List Review) : List (String × Review) :=
  reviews.foldl updateLatest []

/-- `getAllApprovedReviews`: the live (latest) records whose state is
`APPROVED`. -/
def getAllApprovedReviews (reviews : List Review) : List Review :=
  ((latestReviewsByUser reviews).map Prod.snd).filter (fun r => r.state == "APPROVED")

/-- The record the latest-review map binds to a user, if any. -/
def lookupUser (m : List (String × Review)) (u : String) : Option Review :=
  (m.find? (fun e => e.1 == u)).map Prod.snd

/-! ### Quorum evaluator (`checkAllApprovalCriteriaMet`) -/

/-- One per-reviewer contribution entry of the approver summary. -/
structure ApproverSummaryEntry where
  reviewer : String
  satisfiedAsIndividual : Bool
  satisfiedAsTeamMember : List String
  satisfiedFiles : List String
deriving DecidableEq, Repr

/-- The running aggregate of the quorum loop. -/
structure QuorumAcc where
  satisfiedFiles : List String
  approvedIndividuals : List String
  approvedTeams : List String
  approverSummary : List ApproverSummaryEntry
deriving DecidableEq, Repr

/-- The union of the individual approvers across all files. -/
def requiredIndividualsOf (fileApproverMap : List (String × List String)) : List String :=
  fileApproverMap.foldl (fun acc e => unionUnique acc e.2) []

/-- The union of the team approvers across all files. -/
def requiredTeamsOf (fileTeamApproverMap : List (String × List String)) : List String :=
  fileTeamApproverMap.foldl (fun acc e => unionUnique acc e.2) []

/-- The body of the per-approved-review loop of `checkAllApprovalCriteriaMet`:
a reviewer contributes, and is recorded in the summary, exactly when their
satisfaction covers at least one file. -/
def quorumStep (resolve : String → String → Option String)
    (fam ftm : List (String × List String)) (st : QuorumAcc) (review : Review) : QuorumAcc :=
  if !(checkReviewerSatisfaction resolve review.user fam ftm).satisfiedFiles.isEmpty then
    { satisfiedFiles := unionUnique st.satisfiedFiles
        (checkReviewerSatisfaction resolve review.user fam ftm).satisfiedFiles
      approvedIndividuals :=
        if (checkReviewerSatisfaction resolve review.user fam ftm).satisfiedAsIndividual then
          insertUnique st.approvedIndividuals review.user
        else st.approvedIndividuals
      approvedTeams := unionUnique st.approvedTeams
        (checkReviewerSatisfaction resolve review.user fam ftm).satisfiedAsTeamMember
      approverSummary := st.approverSummary ++
        [⟨review.user,
          (checkReviewerSatisfaction resolve review.user fam ftm).satisfiedAsIndividual,
          (checkReviewerSatisfaction resolve review.user fam ftm).satisfiedAsTeamMember,
          (checkReviewerSatisfaction resolve review.user fam ftm).satisfiedFiles⟩] }
  else st

/-- The aggregate over all live-approved reviews. -/
def quorumAggregate (resolve : String → String → Option String) (reviews : List Review)
    (fam ftm : List (String × List String)) : QuorumAcc :=
  (getAllApprovedReviews reviews).foldl (quorumStep resolve fam ftm) ⟨[], [], [], []⟩

/-- The result of `checkAllApprovalCriteriaMet`. -/
structure ApprovalStatus where
  allCriteriaMet : Bool
  satisfiedFiles : List String
  approverSummary : List ApproverSummaryEntry
deriving DecidableEq, Repr

/-- `checkAllApprovalCriteriaMet`: collapse the reviews, aggregate the
approved reviewers' satisfactions, and decide whether every required
individual and team has approved. -/
def checkAllApprovalCriteriaMet (resolve : String → String → Option String)
    (reviews : List Review) (fam ftm : List (String × List String)) : ApprovalStatus :=
  if (getAllApprovedReviews reviews).isEmpty then ⟨false, [], []⟩
  else
    ⟨((requiredIndividualsOf fam).all fun i =>
        (quorumAggregate resolve reviews fam ftm).approvedIndividuals.contains i) &&
      ((requiredTeamsOf ftm).all fun t =>
        (quorumAggregate resolve reviews fam ftm).approvedTeams.contains t) &&
      (!(requiredIndividualsOf fam).isEmpty || !(requiredTeamsOf ftm).isEmpty),
      (quorumAggregate resolve reviews fam ftm).satisfiedFiles,
      (quorumAggregate resolve reviews fam ftm).approverSummary⟩

/-! ### Lemmas: set and map models -/

theorem mem_insertUnique {l : List String} {x y : String} :
    x ∈ insertUnique l y ↔ x ∈ l ∨ x = y := by
  by_cases h : y ∈ l
  · simp only [insertUnique, if_pos h]
    constructor
    · exact Or.inl
    · rintro (hx | rfl)
      · exact hx
      · exact h
  · simp [insertUnique, if_neg h]

theorem insertUnique_nodup {l : List String} {y : String} (h : l.Nodup) :
    (insertUnique l y).Nodup := by
  by_cases hy : y ∈ l
  · simpa [insertUnique, hy] using h
  · simp [insertUnique, hy, List.nodup_append, h]

theorem mem_unionUnique {xs : List String} :
    ∀ {l : List String} {x : String}, x ∈ unionUnique l xs ↔ x ∈ l ∨ x ∈ xs := by
  induction xs with
  | nil => simp [unionUnique]
  | cons a as ih =>
    intro l x
    have : unionUnique l (a :: as) = unionUnique (insertUnique l a) as := by
      simp [unionUnique]
    rw [this, ih, mem_insertUnique]
    simp only [List.mem_cons]
    tauto

theorem unionUnique_nodup {xs : List String} :
    ∀ {l : List String}, l.Nodup → (unionUnique l xs).Nodup := by
  induction xs with
  | nil => intro l h; simpa [unionUnique]
  | cons a as ih =>
    intro l h
    have : unionUnique l (a :: as) = unionUnique (insertUnique l a) as := by
      simp [unionUnique]
    rw [this]
    exact ih (insertUnique_nodup h)

theorem addOwners_eq_unionUnique : ∀ (acc : List String) (o : Option OwnersField),
    addOwners acc o = unionUnique acc (ownersList o)
  | _, none => rfl
  | acc, some (.single s) => by
    by_cases h : s = "" <;> simp [addOwners, ownersList, unionUnique, h]
  | _, some (.multiple _) => rfl

theorem mem_addOwners {acc : List String} {o : Option OwnersField} {x : String} :
    x ∈ addOwners acc o ↔ x ∈ acc ∨ x ∈ ownersList o := by
  rw [addOwners_eq_unionUnique, mem_unionUnique]

theorem addOwners_nodup {acc : List String} {o : Option OwnersField} (h : acc.Nodup) :
    (addOwners acc o).Nodup := by
  rw [addOwners_eq_unionUnique]
  exact unionUnique_nodup h

theorem mem_foldl_unionUnique {m : List (String × List String)} :
    ∀ {init : List String} {x : String},
      x ∈ m.foldl (fun acc e => unionUnique acc e.2) init ↔
        x ∈ init ∨ ∃ e ∈ m, x ∈ e.2 := by
  induction m with
  | nil => simp
  | cons a as ih =>
    intro init x
    simp only [List.foldl_cons]
    rw [ih, mem_unionUnique]
    simp only [List.mem_cons]
    constructor
    · rintro ((h | h) | ⟨e, he, hx⟩)
      · exact Or.inl h
      · exact Or.inr ⟨a, Or.inl rfl, h⟩
      · exact Or.inr ⟨e, Or.inr he, hx⟩
    · rintro (h | ⟨e, (rfl | he), hx⟩)
      · exact Or.inl (Or.inl h)
      · exact Or.inl (Or.inr hx)
      · exact Or.inr ⟨e, he, hx⟩

theorem nodup_foldl_unionUnique {m : List (String × List String)} :
    ∀ {init : List String}, init.Nodup →
      (m.foldl (fun acc e => unionUnique acc e.2) init).Nodup := by
  induction m with
  | nil => intro init h; simpa
  | cons a as ih =>
    intro init h
    simp only [List.foldl_cons]
    exact ih (unionUnique_nodup h)

theorem mem_requiredIndividualsOf {fam : List (String × List String)} {x : String} :
    x ∈ requiredIndividualsOf fam ↔ ∃ e ∈ fam, x ∈ e.2 := by
  rw [requiredIndividualsOf, mem_foldl_unionUnique]
  simp

theorem mem_requiredTeamsOf {ftm : List (String × List String)} {x : String} :
    x ∈ requiredTeamsOf ftm ↔ ∃ e ∈ ftm, x ∈ e.2 := by
  rw [requiredTeamsOf, mem_foldl_unionUnique]
  simp

theorem mem_allTeamApprovers {ftm : List (String × List String)} {x : String} :
    x ∈ allTeamApprovers ftm ↔ ∃ e ∈ ftm, x ∈ e.2 := by
  rw [allTeamApprovers, mem_foldl_unionUnique]
  simp

theorem allTeamApprovers_nodup {ftm : List (String × List String)} :
    (allTeamApprovers ftm).Nodup :=
  nodup_foldl_unionUnique List.nodup_nil

theorem replace_map_fst {α : Type} (m : List (String × α)) (k : String) (v : α) :
    ((m.map fun e => if e.1 == k then (k, v) else e).map Prod.fst) = m.map Prod.fst := by
  rw [List.map_map]
  apply List.map_congr_left
  intro e _
  by_cases h : e.1 = k
  · subst h
    simp
  · simp [h]

theorem assoc_value_eq_of_nodup_keys {α : Type} {m : List (String × α)}
    (h : (m.map Prod.fst).Nodup) {k : String} {v v' : α}
    (h1 : (k, v) ∈ m) (h2 : (k, v') ∈ m) : v = v' := by
  induction m with
  | nil => cases h1
  | cons a m ih =>
    simp only [List.map_cons, List.nodup_cons] at h
    rcases List.mem_cons.1 h1 with he1 | h1' <;> rcases List.mem_cons.1 h2 with he2 | h2'
    · exact congrArg Prod.snd (he1.trans he2.symm)
    · exfalso
      have hk : k ∈ m.map Prod.fst := List.mem_map.2 ⟨(k, v'), h2', rfl⟩
      rw [← he1] at h
      exact h.1 hk
    · exfalso
      have hk : k ∈ m.map Prod.fst := List.mem_map.2 ⟨(k, v), h1', rfl⟩
      rw [← he2] at h
      exact h.1 hk
    · exact ih h.2 h1' h2'

theorem find?_map_replace {α : Type} (m : List (String × α)) (k : String) (v : α) (u : String) :
    (m.map fun e => if e.1 == k then (k, v) else e).find? (fun e => e.1 == u) =
      (m.find? (fun e => e.1 == u)).map (fun e => if e.1 == k then (k, v) else e) := by
  induction m with
  | nil => rfl
  | cons a m ih =>
    have hkey : ((if a.1 == k then (k, v) else a) : String × α).1 = a.1 := by
      by_cases h : a.1 = k
      · subst h
        simp
      · simp [h]
    by_cases ha : a.1 = u
    · rw [List.map_cons,
        List.find?_cons_of_pos _ (by simp only [hkey]; simp [ha]),
        List.find?_cons_of_pos _ (by simp [ha])]
      rfl
    · rw [List.map_cons,
        List.find?_cons_of_neg _ (by simp only [hkey]; simp [ha]),
        List.find?_cons_of_neg _ (by simp [ha])]
      exact ih

theorem mapSet_map_fst (m : List (String × List String)) (k : String) (v : List String) :
    (mapSet m k v).map Prod.fst =
      if m.any (fun e => e.1 == k) then m.map Prod.fst else m.map Prod.fst ++ [k] := by
  unfold mapSet
  split
  · rw [replace_map_fst]
  · simp

theorem mem_map_fst_mapSet {m : List (String × List String)} {k v k'} :
    k' ∈ (mapSet m k v).map Prod.fst ↔ k' ∈ m.map Prod.fst ∨ k' = k := by
  rw [mapSet_map_fst]
  split
  · next h =>
    constructor
    · exact Or.inl
    · rintro (h' | rfl)
      · exact h'
      · obtain ⟨e, he, hk⟩ := List.any_eq_true.1 h
        exact List.mem_map.2 ⟨e, he, eq_of_beq hk⟩
  · simp

theorem mapSet_keys_nodup {m : List (String × List String)} {k v}
    (h : (m.map Prod.fst).Nodup) : ((mapSet m k v).map Prod.fst).Nodup := by
  rw [mapSet_map_fst]
  split
  · exact h
  · next hc =>
    have hk : k ∉ m.map Prod.fst := by
      intro hk
      obtain ⟨e, he, hke⟩ := List.mem_map.1 hk
      exact hc (List.any_eq_true.2 ⟨e, he, beq_iff_eq.2 hke⟩)
    simp [List.nodup_append, h, hk]

theorem mem_mapSet {m : List (String × List String)} {k v e} (h : e ∈ mapSet m k v) :
    e = (k, v) ∨ e ∈ m := by
  unfold mapSet at h
  split at h
  · obtain ⟨e', he', heq⟩ := List.mem_map.1 h
    by_cases hk : e'.1 == k
    · rw [if_pos hk] at heq
      exact Or.inl heq.symm
    · rw [if_neg hk] at heq
      exact Or.inr (heq ▸ he')
  · rcases List.mem_append.1 h with h' | h'
    · exact Or.inr h'
    · exact Or.inl (List.mem_singleton.1 h')

/-! ### Lemmas: requirement resolver -/

theorem mem_foldl_patStep_fst {filePath : String} {pats : List PatternConfig} :
    ∀ {init : List String × List String} {x : String},
      x ∈ (pats.foldl (patStep filePath) init).1 ↔
        x ∈ init.1 ∨ ∃ pc ∈ pats, minimatch filePath pc.pattern = true ∧ x ∈ ownersList pc.owners := by
  induction pats with
  | nil => simp
  | cons pc pats ih =>
    intro init x
    simp only [List.foldl_cons]
    rw [ih]
    unfold patStep
    by_cases h : minimatch filePath pc.pattern
    · simp only [if_pos h, mem_addOwners, List.mem_cons]
      constructor
      · rintro ((hx | hx) | ⟨pc', h1, h2⟩)
        · exact Or.inl hx
        · exact Or.inr ⟨pc, Or.inl rfl, h, hx⟩
        · exact Or.inr ⟨pc', Or.inr h1, h2⟩
      · rintro (hx | ⟨pc', (rfl | h1), h2, h3⟩)
        · exact Or.inl (Or.inl hx)
        · exact Or.inl (Or.inr h3)
        · exact Or.inr ⟨pc', h1, h2, h3⟩
    · simp only [if_neg h, List.mem_cons]
      constructor
      · rintro (hx | ⟨pc', h1, h2⟩)
        · exact Or.inl hx
        · exact Or.inr ⟨pc', Or.inr h1, h2⟩
      · rintro (hx | ⟨pc', (rfl | h1), h2, h3⟩)
        · exact Or.inl hx
        · exact absurd h2 (by simpa using h)
        · exact Or.inr ⟨pc', h1, h2, h3⟩

theorem mem_foldl_patStep_snd {filePath : String} {pats : List PatternConfig} :
    ∀ {init : List String × List String} {x : String},
      x ∈ (pats.foldl (patStep filePath) init).2 ↔
        x ∈ init.2 ∨
          ∃ pc ∈ pats, minimatch filePath pc.pattern = true ∧ x ∈ ownersList pc.teamOwners := by
  induction pats with
  | nil => simp
  | cons pc pats ih =>
    intro init x
    simp only [List.foldl_cons]
    rw [ih]
    unfold patStep
    by_cases h : minimatch filePath pc.pattern
    · simp only [if_pos h, mem_addOwners, List.mem_cons]
      constructor
      · rintro ((hx | hx) | ⟨pc', h1, h2⟩)
        · exact Or.inl hx
        · exact Or.inr ⟨pc, Or.inl rfl, h, hx⟩
        · exact Or.inr ⟨pc', Or.inr h1, h2⟩
      · rintro (hx | ⟨pc', (rfl | h1), h2, h3⟩)
        · exact Or.inl (Or.inl hx)
        · exact Or.inl (Or.inr h3)
        · exact Or.inr ⟨pc', h1, h2, h3⟩
    · simp only [if_neg h, List.mem_cons]
      constructor
      · rintro (hx | ⟨pc', h1, h2⟩)
        · exact Or.inl hx
        · exact Or.inr ⟨pc', Or.inr h1, h2⟩
      · rintro (hx | ⟨pc', (rfl | h1), h2, h3⟩)
        · exact Or.inl hx
        · exact absurd h2 (by simpa using h)
        · exact Or.inr ⟨pc', h1, h2, h3⟩

theorem mem_matchedOwners_fst {config : ApproversConfig} {filePath x : String} :
    x ∈ (matchedOwners config filePath).1 ↔
      ∃ pc ∈ config.patterns.getD [],
        minimatch filePath pc.pattern = true ∧ x ∈ ownersList pc.owners := by
  unfold matchedOwners
  cases config.patterns with
  | none => simp
  | some pats =>
    simp only [Option.getD_some]
    rw [mem_foldl_patStep_fst]
    simp

theorem mem_matchedOwners_snd {config : ApproversConfig} {filePath x : String} :
    x ∈ (matchedOwners config filePath).2 ↔
      ∃ pc ∈ config.patterns.getD [],
        minimatch filePath pc.pattern = true ∧ x ∈ ownersList pc.teamOwners := by
  unfold matchedOwners
  cases config.patterns with
  | none => simp
  | some pats =>
    simp only [Option.getD_some]
    rw [mem_foldl_patStep_snd]
    simp

theorem foldl_patStep_nodup {filePath : String} {pats : List PatternConfig} :
    ∀ {init : List String × List String}, init.1.Nodup → init.2.Nodup →
      (pats.foldl (patStep filePath) init).1.Nodup ∧
        (pats.foldl (patStep filePath) init).2.Nodup := by
  induction pats with
  | nil => exact fun h1 h2 => ⟨h1, h2⟩
  | cons pc pats ih =>
    intro init h1 h2
    simp only [List.foldl_cons]
    unfold patStep
    by_cases h : minimatch filePath pc.pattern
    · simp only [if_pos h]
      exact ih (addOwners_nodup h1) (addOwners_nodup h2)
    · simp only [if_neg h]
      exact ih h1 h2

theorem matchedOwners_nodup {config : ApproversConfig} {filePath : String} :
    (matchedOwners config filePath).1.Nodup ∧ (matchedOwners config filePath).2.Nodup := by
  unfold matchedOwners
  cases config.patterns with
  | none => simp
  | some pats => exact foldl_patStep_nodup List.nodup_nil List.nodup_nil

theorem resolveFileOwners_nodup {config : ApproversConfig} {filePath : String} :
    (resolveFileOwners config filePath).1.Nodup ∧
      (resolveFileOwners config filePath).2.Nodup := by
  unfold resolveFileOwners
  split
  · cases config.fallback with
    | none => exact matchedOwners_nodup
    | some fb => exact ⟨addOwners_nodup List.nodup_nil, addOwners_nodup List.nodup_nil⟩
  · exact matchedOwners_nodup

/-! ### Lemmas: globstar absorption -/

theorem mem_cleanSuffixes_self (segs : List (List Char)) : segs ∈ cleanSuffixes segs := by
  cases segs <;> simp [cleanSuffixes]

theorem matchSegs_globstar_absorb {ps ms segs : List (List Char)}
    (hclean : ∀ s ∈ ms, s.head? ≠ some '.') (h : matchSegs ps segs = true) :
    matchSegs (['*', '*'] :: ps) (ms ++ segs) = true := by
  induction ms with
  | nil =>
    simp only [List.nil_append, matchSegs, if_pos rfl]
    exact List.any_eq_true.2 ⟨segs, mem_cleanSuffixes_self segs, h⟩
  | cons m ms ih =>
    have hm : m.head? ≠ some '.' := hclean m (List.mem_cons_self m ms)
    have hrec := ih fun s hs => hclean s (List.mem_cons_of_mem m hs)
    simp only [matchSegs, if_pos rfl] at hrec ⊢
    obtain ⟨suf, hsuf, hmatch⟩ := List.any_eq_true.1 hrec
    refine List.any_eq_true.2 ⟨suf, ?_, hmatch⟩
    simp only [List.cons_append, cleanSuffixes, if_neg hm]
    exact List.mem_cons_of_mem _ hsuf

/-! ### Lemmas: the `findApprovers` fold invariant -/

theorem any_key_eq_of_map_fst_eq {m₁ m₂ : List (String × List String)} {k : String}
    (h : m₁.map Prod.fst = m₂.map Prod.fst) :
    m₁.any (fun e => e.1 == k) = m₂.any (fun e => e.1 == k) := by
  have h₁ : ∀ (m : List (String × List String)),
      m.any (fun e => e.1 == k) = (m.map Prod.fst).any (fun a => a == k) := by
    intro m
    induction m with
    | nil => rfl
    | cons e es ih => simp [ih]
  rw [h₁, h₁, h]

theorem findApprovers_fold_invariant (config : ApproversConfig) (files : List String) :
    ∀ (init : List (String × List String) × List (String × List String)),
      init.1.map Prod.fst = init.2.map Prod.fst →
      (init.1.map Prod.fst).Nodup →
      (∀ e ∈ init.1, e.2.Nodup) →
      (∀ e ∈ init.2, e.2.Nodup) →
      ((files.foldl (findStep config) init).1.map Prod.fst =
        (files.foldl (findStep config) init).2.map Prod.fst) ∧
      ((files.foldl (findStep config) init).1.map Prod.fst).Nodup ∧
      (∀ e ∈ (files.foldl (findStep config) init).1, e.2.Nodup) ∧
      (∀ e ∈ (files.foldl (findStep config) init).2, e.2.Nodup) ∧
      (∀ k, k ∈ init.1.map Prod.fst ∨ k ∈ files →
        k ∈ (files.foldl (findStep config) init).1.map Prod.fst) := by
  induction files with
  | nil =>
    intro init h1 h2 h3 h4
    refine ⟨h1, h2, h3, h4, ?_⟩
    rintro k (hk | hk)
    · exact hk
    · exact absurd hk (List.not_mem_nil k)
  | cons f files ih =>
    intro init h1 h2 h3 h4
    simp only [List.foldl_cons]
    have hkeys : (findStep config init f).1.map Prod.fst =
        (findStep config init f).2.map Prod.fst := by
      unfold findStep
      rw [mapSet_map_fst, mapSet_map_fst, any_key_eq_of_map_fst_eq h1, h1]
    have hnodup : ((findStep config init f).1.map Prod.fst).Nodup :=
      mapSet_keys_nodup h2
    have hv1 : ∀ e ∈ (findStep config init f).1, e.2.Nodup := by
      intro e he
      rcases mem_mapSet he with rfl | he'
      · exact resolveFileOwners_nodup.1
      · exact h3 e he'
    have hv2 : ∀ e ∈ (findStep config init f).2, e.2.Nodup := by
      intro e he
      rcases mem_mapSet he with rfl | he'
      · exact resolveFileOwners_nodup.2
      · exact h4 e he'
    obtain ⟨g1, g2, g3, g4, g5⟩ := ih (findStep config init f) hkeys hnodup hv1 hv2
    refine ⟨g1, g2, g3, g4, ?_⟩
    rintro k (hk | hk)
    · exact g5 k (Or.inl (mem_map_fst_mapSet.2 (Or.inl hk)))
    · rcases List.mem_cons.1 hk with rfl | hk'
      · exact g5 k (Or.inl (mem_map_fst_mapSet.2 (Or.inr rfl)))
      · exact g5 k (Or.inr hk')

/-! ### Lemmas: satisfaction checker -/

theorem mem_teamMembershipsOf {resolve : String → String → Option String}
    {reviewer t : String} {teams : List String} :
    t ∈ teamMembershipsOf resolve reviewer teams ↔
      t ∈ teams ∧ resolve t reviewer = some "active" := by
  simp [teamMembershipsOf, List.mem_filter]

theorem mem_addSatisfiedTeams {memberships : List String} {ts : List String} :
    ∀ {acc : List String} {x : String},
      x ∈ addSatisfiedTeams memberships acc ts ↔
        x ∈ acc ∨ (x ∈ ts ∧ x ∈ memberships) := by
  induction ts with
  | nil => simp [addSatisfiedTeams]
  | cons t ts ih =>
    intro acc x
    rw [show addSatisfiedTeams memberships acc (t :: ts) =
        addSatisfiedTeams memberships
          (if memberships.contains t && !acc.contains t then acc ++ [t] else acc) ts from rfl]
    by_cases h1 : t ∈ memberships
    · by_cases h2 : t ∈ acc
      · rw [if_neg (by simp [h2])]
        rw [ih]
        constructor
        · rintro (hx | ⟨hx1, hx2⟩)
          · exact Or.inl hx
          · exact Or.inr ⟨List.mem_cons_of_mem t hx1, hx2⟩
        · rintro (hx | ⟨hx1, hx2⟩)
          · exact Or.inl hx
          · rcases List.mem_cons.1 hx1 with rfl | hx1'
            · exact Or.inl h2
            · exact Or.inr ⟨hx1', hx2⟩
      · rw [if_pos (by simp [h1, h2])]
        rw [ih]
        simp only [List.mem_append, List.mem_cons, List.not_mem_nil, or_false]
        constructor
        · rintro ((hx | rfl) | ⟨hx1, hx2⟩)
          · exact Or.inl hx
          · exact Or.inr ⟨Or.inl rfl, h1⟩
          · exact Or.inr ⟨Or.inr hx1, hx2⟩
        · rintro (hx | ⟨(rfl | hx1), hx2⟩)
          · exact Or.inl (Or.inl hx)
          · exact Or.inl (Or.inr rfl)
          · exact Or.inr ⟨hx1, hx2⟩
    · rw [if_neg (by simp [h1])]
      rw [ih]
      constructor
      · rintro (hx | ⟨hx1, hx2⟩)
        · exact Or.inl hx
        · exact Or.inr ⟨List.mem_cons_of_mem t hx1, hx2⟩
      · rintro (hx | ⟨hx1, hx2⟩)
        · exact Or.inl hx
        · rcases List.mem_cons.1 hx1 with rfl | hx1'
          · exact absurd hx2 h1
          · exact Or.inr ⟨hx1', hx2⟩

theorem addSatisfiedTeams_nodup {memberships ts : List String} :
    ∀ {acc : List String}, acc.Nodup → (addSatisfiedTeams memberships acc ts).Nodup := by
  induction ts with
  | nil => exact fun h => h
  | cons t ts ih =>
    intro acc hacc
    rw [show addSatisfiedTeams memberships acc (t :: ts) =
        addSatisfiedTeams memberships
          (if memberships.contains t && !acc.contains t then acc ++ [t] else acc) ts from rfl]
    apply ih
    split
    · next hcond =>
      have ht : t ∉ acc := by
        intro h
        simp at hcond
        exact hcond.2 h
      simp [List.nodup_append, hacc, ht]
    · exact hacc

/-- The satisfaction condition of one file entry, as a proposition. -/
theorem satStep_cond_iff {reviewer : String} {ftm : List (String × List String)}
    {memberships : List String} {e : String × List String} :
    (e.2.contains reviewer ||
        (mapGetD ftm e.1 []).any (fun t => memberships.contains t)) = true ↔
      reviewer ∈ e.2 ∨ ∃ t ∈ mapGetD ftm e.1 [], t ∈ memberships := by
  rw [Bool.or_eq_true, List.any_eq_true]
  constructor
  · rintro (h | ⟨t, ht, htm⟩)
    · exact Or.inl (List.elem_iff.1 h)
    · exact Or.inr ⟨t, ht, List.elem_iff.1 htm⟩
  · rintro (h | ⟨t, ht, htm⟩)
    · exact Or.inl (List.elem_iff.2 h)
    · exact Or.inr ⟨t, ht, List.elem_iff.2 htm⟩

theorem satFold_files {reviewer : String} {ftm : List (String × List String)}
    {memberships : List String} {fam : List (String × List String)} :
    ∀ {res : SatisfactionResult} {p : String},
      p ∈ (fam.foldl (satStep reviewer ftm memberships) res).satisfiedFiles ↔
        p ∈ res.satisfiedFiles ∨
          ∃ e ∈ fam, e.1 = p ∧
            (reviewer ∈ e.2 ∨ ∃ t ∈ mapGetD ftm e.1 [], t ∈ memberships) := by
  induction fam with
  | nil => simp
  | cons a fam ih =>
    intro res p
    simp only [List.foldl_cons]
    rw [ih]
    unfold satStep
    simp only [List.mem_cons]
    by_cases hc : (a.2.contains reviewer ||
        (mapGetD ftm a.1 []).any (fun t => memberships.contains t)) = true
    · rw [if_pos hc]
      simp only [List.mem_append, List.mem_singleton]
      have hcp := satStep_cond_iff.1 hc
      constructor
      · rintro ((hx | rfl) | ⟨e, he, h1, h2⟩)
        · exact Or.inl hx
        · exact Or.inr ⟨a, Or.inl rfl, rfl, hcp⟩
        · exact Or.inr ⟨e, Or.inr he, h1, h2⟩
      · rintro (hx | ⟨e, (rfl | he), h1, h2⟩)
        · exact Or.inl (Or.inl hx)
        · exact Or.inl (Or.inr h1.symm)
        · exact Or.inr ⟨e, he, h1, h2⟩
    · rw [if_neg hc]
      have hnc : ¬(reviewer ∈ a.2 ∨ ∃ t ∈ mapGetD ftm a.1 [], t ∈ memberships) :=
        fun h => hc (satStep_cond_iff.2 h)
      constructor
      · rintro (hx | ⟨e, he, h1, h2⟩)
        · exact Or.inl hx
        · exact Or.inr ⟨e, Or.inr he, h1, h2⟩
      · rintro (hx | ⟨e, (rfl | he), h1, h2⟩)
        · exact Or.inl hx
        · exact absurd h2 hnc
        · exact Or.inr ⟨e, he, h1, h2⟩

theorem satFold_flag {reviewer : String} {ftm : List (String × List String)}
    {memberships : List String} {fam : List (String × List String)} :
    ∀ {res : SatisfactionResult},
      ((fam.foldl (satStep reviewer ftm memberships) res).satisfiedAsIndividual = true ↔
        res.satisfiedAsIndividual = true ∨ ∃ e ∈ fam, reviewer ∈ e.2) := by
  induction fam with
  | nil => simp
  | cons a fam ih =>
    intro res
    simp only [List.foldl_cons]
    rw [ih]
    unfold satStep
    simp only [List.mem_cons]
    by_cases hc : (a.2.contains reviewer ||
        (mapGetD ftm a.1 []).any (fun t => memberships.contains t)) = true
    · rw [if_pos hc]
      simp only [Bool.or_eq_true]
      constructor
      · rintro ((hx | hx) | ⟨e, he, h2⟩)
        · exact Or.inl hx
        · exact Or.inr ⟨a, Or.inl rfl, List.elem_iff.1 hx⟩
        · exact Or.inr ⟨e, Or.inr he, h2⟩
      · rintro (hx | ⟨e, (rfl | he), h2⟩)
        · exact Or.inl (Or.inl hx)
        · exact Or.inl (Or.inr (List.elem_iff.2 h2))
        · exact Or.inr ⟨e, he, h2⟩
    · rw [if_neg hc]
      have hnc : reviewer ∉ a.2 := by
        intro h
        exact hc (satStep_cond_iff.2 (Or.inl h))
      constructor
      · rintro (hx | ⟨e, he, h2⟩)
        · exact Or.inl hx
        · exact Or.inr ⟨e, Or.inr he, h2⟩
      · rintro (hx | ⟨e, (rfl | he), h2⟩)
        · exact Or.inl hx
        · exact absurd h2 hnc
        · exact Or.inr ⟨e, he, h2⟩

theorem satFold_teams {reviewer : String} {ftm : List (String × List String)}
    {memberships : List String} {fam : List (String × List String)} :
    ∀ {res : SatisfactionResult} {x : String},
      x ∈ (fam.foldl (satStep reviewer ftm memberships) res).satisfiedAsTeamMember ↔
        x ∈ res.satisfiedAsTeamMember ∨
          (x ∈ memberships ∧ ∃ e ∈ fam, x ∈ mapGetD ftm e.1 []) := by
  induction fam with
  | nil => simp
  | cons a fam ih =>
    intro res x
    simp only [List.foldl_cons]
    rw [ih]
    unfold satStep
    simp only [List.mem_cons]
    by_cases hinner : ((mapGetD ftm a.1 []).any (fun t => memberships.contains t)) = true
    · rw [if_pos (by rw [Bool.or_eq_true]; exact Or.inr hinner), if_pos hinner]
      rw [mem_addSatisfiedTeams]
      constructor
      · rintro ((hx | ⟨hx1, hx2⟩) | ⟨hx1, e, he, hx2⟩)
        · exact Or.inl hx
        · exact Or.inr ⟨hx2, a, Or.inl rfl, hx1⟩
        · exact Or.inr ⟨hx1, e, Or.inr he, hx2⟩
      · rintro (hx | ⟨hx1, e, (rfl | he), hx2⟩)
        · exact Or.inl (Or.inl hx)
        · exact Or.inl (Or.inr ⟨hx2, hx1⟩)
        · exact Or.inr ⟨hx1, e, he, hx2⟩
    · have hno : ¬(x ∈ memberships ∧ x ∈ mapGetD ftm a.1 []) := by
        rintro ⟨hm, hg⟩
        exact hinner (List.any_eq_true.2 ⟨x, hg, List.elem_iff.2 hm⟩)
      have hsame : ∀ res' : SatisfactionResult,
          (x ∈ res'.satisfiedAsTeamMember ∨
            (x ∈ memberships ∧ ∃ e ∈ fam, x ∈ mapGetD ftm e.1 [])) ↔
          (x ∈ res'.satisfiedAsTeamMember ∨
            (x ∈ memberships ∧ ∃ e, (e = a ∨ e ∈ fam) ∧ x ∈ mapGetD ftm e.1 [])) := by
        intro res'
        constructor
        · rintro (hx | ⟨hx1, e, he, hx2⟩)
          · exact Or.inl hx
          · exact Or.inr ⟨hx1, e, Or.inr he, hx2⟩
        · rintro (hx | ⟨hx1, e, (rfl | he), hx2⟩)
          · exact Or.inl hx
          · exact absurd ⟨hx1, hx2⟩ hno
          · exact Or.inr ⟨hx1, e, he, hx2⟩
      by_cases houter : (a.2.contains reviewer ||
          (mapGetD ftm a.1 []).any (fun t => memberships.contains t)) = true
      · rw [if_pos houter, if_neg hinner]
        exact hsame res
      · rw [if_neg houter]
        exact hsame res

theorem satFold_teams_nodup {reviewer : String} {ftm : List (String × List String)}
    {memberships : List String} {fam : List (String × List String)} :
    ∀ {res : SatisfactionResult}, res.satisfiedAsTeamMember.Nodup →
      (fam.foldl (satStep reviewer ftm memberships) res).satisfiedAsTeamMember.Nodup := by
  induction fam with
  | nil => exact fun h => h
  | cons a fam ih =>
    intro res hres
    simp only [List.foldl_cons]
    apply ih
    unfold satStep
    split
    · split
      · exact addSatisfiedTeams_nodup hres
      · exact hres
    · exact hres

theorem checkReviewerSatisfaction_eq_fold (resolve : String → String → Option String)
    (reviewer : String) (fam ftm : List (String × List String)) :
    checkReviewerSatisfaction resolve reviewer fam ftm =
      fam.foldl
        (satStep reviewer ftm (teamMembershipsOf resolve reviewer (allTeamApprovers ftm)))
        ⟨[], false, []⟩ := rfl

theorem teamMembershipsOf_congr {resolve resolve' : String → String → Option String}
    {reviewer : String} (teams : List String)
    (h : ∀ team, resolve team reviewer = some "active" ↔
      resolve' team reviewer = some "active") :
    teamMembershipsOf resolve reviewer teams = teamMembershipsOf resolve' reviewer teams := by
  unfold teamMembershipsOf
  apply List.filter_congr
  intro t _
  by_cases hx : resolve t reviewer = some "active"
  · have hx' := (h t).1 hx
    rw [Bool.eq_iff_iff]
    simp [hx, hx']
  · have hx' : ¬resolve' t reviewer = some "active" := fun hc => hx ((h t).2 hc)
    rw [Bool.eq_iff_iff]
    simp [hx, hx']

theorem checkReviewerSatisfaction_congr {resolve resolve' : String → String → Option String}
    {reviewer : String} (fam ftm : List (String × List String))
    (h : ∀ team, resolve team reviewer = some "active" ↔
      resolve' team reviewer = some "active") :
    checkReviewerSatisfaction resolve reviewer fam ftm =
      checkReviewerSatisfaction resolve' reviewer fam ftm := by
  rw [checkReviewerSatisfaction_eq_fold, checkReviewerSatisfaction_eq_fold,
    teamMembershipsOf_congr _ h]

theorem quorumStep_congr {resolve resolve' : String → String → Option String}
    (fam ftm : List (String × List String))
    (h : ∀ team r, resolve team r = some "active" ↔ resolve' team r = some "active") :
    quorumStep resolve fam ftm = quorumStep resolve' fam ftm := by
  funext st review
  unfold quorumStep
  rw [checkReviewerSatisfaction_congr fam ftm (fun team => h team review.user)]

theorem quorumAggregate_congr {resolve resolve' : String → String → Option String}
    (reviews : List Review) (fam ftm : List (String × List String))
    (h : ∀ team r, resolve team r = some "active" ↔ resolve' team r = some "active") :
    quorumAggregate resolve reviews fam ftm = quorumAggregate resolve' reviews fam ftm := by
  unfold quorumAggregate
  rw [quorumStep_congr fam ftm h]

theorem checkAllApprovalCriteriaMet_congr {resolve resolve' : String → String → Option String}
    (reviews : List Review) (fam ftm : List (String × List String))
    (h : ∀ team r, resolve team r = some "active" ↔ resolve' team r = some "active") :
    checkAllApprovalCriteriaMet resolve reviews fam ftm =
      checkAllApprovalCriteriaMet resolve' reviews fam ftm := by
  unfold checkAllApprovalCriteriaMet
  rw [quorumAggregate_congr reviews fam ftm h]

/-! ### Lemmas: review collapse -/

theorem latestReviewsByUser_concat (rs : List Review) (r : Review) :
    latestReviewsByUser (rs ++ [r]) = updateLatest (latestReviewsByUser rs) r := by
  simp [latestReviewsByUser, List.foldl_append]

theorem lookupUser_updateLatest (m : List (String × Review)) (r : Review) (u : String) :
    lookupUser (updateLatest m r) u =
      if u = r.user then
        match lookupUser m r.user with
        | none => some r
        | some b => if r.submittedAt > b.submittedAt then some r else some b
      else lookupUser m u := by
  by_cases hu : u = r.user
  · rw [if_pos hu, hu]
    cases hfind : m.find? (fun e => e.1 == r.user) with
    | none =>
      have hnone : lookupUser m r.user = none := by
        simp [lookupUser, hfind]
      rw [hnone]
      simp only [updateLatest, hfind, lookupUser]
      rw [List.find?_append, hfind]
      simp
    | some e =>
      have hsome : lookupUser m r.user = some e.2 := by
        simp [lookupUser, hfind]
      rw [hsome]
      have he : (e.1 == r.user) = true := by
        simpa using List.find?_some hfind
      by_cases htime : r.submittedAt > e.2.submittedAt
      · simp only [updateLatest, hfind, if_pos htime, lookupUser]
        rw [find?_map_replace, hfind]
        simp [eq_of_beq he]
      · simp only [updateLatest, hfind, if_neg htime, lookupUser]
        rfl
  · rw [if_neg hu]
    cases hfind : m.find? (fun e => e.1 == r.user) with
    | none =>
      simp only [updateLatest, hfind, lookupUser]
      rw [List.find?_append]
      have h2 : List.find? (fun e => e.1 == u) [(r.user, r)] = none := by
        simp [show r.user ≠ u from fun hc => hu hc.symm]
      rw [h2]
      simp
    | some e =>
      by_cases htime : r.submittedAt > e.2.submittedAt
      · simp only [updateLatest, hfind, if_pos htime, lookupUser]
        rw [find?_map_replace]
        cases hgu : m.find? (fun e => e.1 == u) with
        | none => simp
        | some e' =>
          have he' : (e'.1 == u) = true := by
            simpa using List.find?_some hgu
          have hne : ¬e'.1 = r.user := by
            intro hc
            exact hu ((eq_of_beq he').symm.trans hc)
          simp [hne]
      · simp only [updateLatest, hfind, if_neg htime]

theorem lookupUser_latest_argmax (rs : List Review) (u : String) :
    lookupUser (latestReviewsByUser rs) u =
      (rs.filter (fun r => r.user == u)).argmax Review.submittedAt := by
  induction rs using List.reverseRecOn with
  | nil => rfl
  | append_singleton l a ih =>
    rw [latestReviewsByUser_concat, lookupUser_updateLatest, List.filter_append]
    by_cases hu : u = a.user
    · rw [if_pos hu, ← hu]
      have hfa : List.filter (fun r => r.user == u) [a] = [a] := by
        simp [hu]
      rw [hfa, List.argmax_concat, ih]
      cases harg : (List.filter (fun r => r.user == u) l).argmax Review.submittedAt <;>
        simp [harg, gt_iff_lt]
    · rw [if_neg hu]
      have hfa : List.filter (fun r => r.user == u) [a] = [] := by
        simp [show a.user ≠ u from fun hc => hu hc.symm]
      rw [hfa, List.append_nil, ih]

theorem latest_user_eq_key (rs : List Review) :
    ∀ e ∈ latestReviewsByUser rs, e.2.user = e.1 := by
  suffices h : ∀ (m : List (String × Review)), (∀ e ∈ m, e.2.user = e.1) →
      ∀ e ∈ rs.foldl updateLatest m, e.2.user = e.1 by
    exact h [] (by intro e he; exact absurd he (List.not_mem_nil e))
  induction rs with
  | nil => exact fun m hm => hm
  | cons r rs ih =>
    intro m hm
    simp only [List.foldl_cons]
    apply ih
    intro e he
    unfold updateLatest at he
    split at he
    · rcases List.mem_append.1 he with h' | h'
      · exact hm e h'
      · rw [List.mem_singleton.1 h']
    · split at he
      · obtain ⟨x, hx, hgx⟩ := List.mem_map.1 he
        by_cases hxk : x.1 = r.user
        · rw [← hgx]
          simp [hxk]
        · rw [← hgx]
          simp only [hxk, beq_iff_eq, if_false]
          exact hm x hx
      · exact hm e he

theorem latest_keys_nodup (rs : List Review) :
    ((latestReviewsByUser rs).map Prod.fst).Nodup := by
  suffices h : ∀ (m : List (String × Review)), (m.map Prod.fst).Nodup →
      ((rs.foldl updateLatest m).map Prod.fst).Nodup by
    exact h [] List.nodup_nil
  induction rs with
  | nil => exact fun m hm => hm
  | cons r rs ih =>
    intro m hm
    simp only [List.foldl_cons]
    apply ih
    unfold updateLatest
    split
    · next hfind =>
      have hnotin : r.user ∉ m.map Prod.fst := by
        intro hc
        obtain ⟨e, he, hke⟩ := List.mem_map.1 hc
        rw [List.find?_eq_none] at hfind
        exact hfind e he (by simp [hke])
      simp [List.nodup_append, hm, hnotin]
    · split
      · rw [replace_map_fst]
        exact hm
      · exact hm

theorem mem_getAllApprovedReviews {rs : List Review} {rec : Review} :
    rec ∈ getAllApprovedReviews rs ↔
      (∃ e ∈ latestReviewsByUser rs, e.2 = rec) ∧ rec.state = "APPROVED" := by
  simp [getAllApprovedReviews, List.mem_filter, List.mem_map]

theorem mem_updateLatest_of_ne {m : List (String × Review)} {r : Review}
    {e : String × Review} (he : e ∈ m) (hk : e.1 ≠ r.user) : e ∈ updateLatest m r := by
  unfold updateLatest
  split
  · exact List.mem_append_left _ he
  · split
    · exact List.mem_map.2 ⟨e, he, by simp [hk]⟩
    · exact he

theorem getAllApprovedReviews_concat_superset {rs : List Review} {r : Review}
    (hnew : ∀ rec ∈ getAllApprovedReviews rs, rec.user ≠ r.user) :
    ∀ rec ∈ getAllApprovedReviews rs, rec ∈ getAllApprovedReviews (rs ++ [r]) := by
  intro rec hrec
  obtain ⟨⟨e, he, he2⟩, hst⟩ := mem_getAllApprovedReviews.1 hrec
  have hkey : e.1 ≠ r.user := by
    have huser := latest_user_eq_key rs e he
    rw [he2] at huser
    rw [← huser]
    exact hnew rec hrec
  apply mem_getAllApprovedReviews.2
  refine ⟨⟨e, ?_, he2⟩, hst⟩
  rw [latestReviewsByUser_concat]
  exact mem_updateLatest_of_ne he hkey

/-! ### Lemmas: quorum evaluator -/

theorem quorumFold_inds {resolve : String → String → Option String}
    {fam ftm : List (String × List String)} {l : List Review} :
    ∀ {st : QuorumAcc} {x : String},
      x ∈ (l.foldl (quorumStep resolve fam ftm) st).approvedIndividuals ↔
        x ∈ st.approvedIndividuals ∨
          ∃ rec ∈ l,
            (checkReviewerSatisfaction resolve rec.user fam ftm).satisfiedFiles ≠ [] ∧
            (checkReviewerSatisfaction resolve rec.user fam ftm).satisfiedAsIndividual = true ∧
            x = rec.user := by
  induction l with
  | nil => simp
  | cons rec l ih =>
    intro st x
    simp only [List.foldl_cons]
    rw [ih]
    unfold quorumStep
    by_cases hc : (checkReviewerSatisfaction resolve rec.user fam ftm).satisfiedFiles.isEmpty
    · rw [if_neg (by simp [hc])]
      have hfe : (checkReviewerSatisfaction resolve rec.user fam ftm).satisfiedFiles = [] :=
        List.isEmpty_iff.1 hc
      constructor
      · rintro (hx | ⟨rec', hrec', h1, h2, h3⟩)
        · exact Or.inl hx
        · exact Or.inr ⟨rec', List.mem_cons_of_mem _ hrec', h1, h2, h3⟩
      · rintro (hx | ⟨rec', hrec', h1, h2, h3⟩)
        · exact Or.inl hx
        · rcases List.mem_cons.1 hrec' with rfl | hmem
          · exact absurd hfe h1
          · exact Or.inr ⟨rec', hmem, h1, h2, h3⟩
    · rw [if_pos (by simp [hc])]
      have hne : (checkReviewerSatisfaction resolve rec.user fam ftm).satisfiedFiles ≠ [] :=
        fun h => hc (by rw [h]; rfl)
      by_cases hflag :
          (checkReviewerSatisfaction resolve rec.user fam ftm).satisfiedAsIndividual = true
      · simp only [if_pos hflag, mem_insertUnique]
        constructor
        · rintro ((hx | rfl) | ⟨rec', hrec', h1, h2, h3⟩)
          · exact Or.inl hx
          · exact Or.inr ⟨rec, List.mem_cons_self _ _, hne, hflag, rfl⟩
          · exact Or.inr ⟨rec', List.mem_cons_of_mem _ hrec', h1, h2, h3⟩
        · rintro (hx | ⟨rec', hrec', h1, h2, h3⟩)
          · exact Or.inl (Or.inl hx)
          · rcases List.mem_cons.1 hrec' with rfl | hmem
            · exact Or.inl (Or.inr h3)
            · exact Or.inr ⟨rec', hmem, h1, h2, h3⟩
      · simp only [if_neg hflag]
        constructor
        · rintro (hx | ⟨rec', hrec', h1, h2, h3⟩)
          · exact Or.inl hx
          · exact Or.inr ⟨rec', List.mem_cons_of_mem _ hrec', h1, h2, h3⟩
        · rintro (hx | ⟨rec', hrec', h1, h2, h3⟩)
          · exact Or.inl hx
          · rcases List.mem_cons.1 hrec' with rfl | hmem
            · exact absurd h2 hflag
            · exact Or.inr ⟨rec', hmem, h1, h2, h3⟩

theorem quorumFold_teams {resolve : String → String → Option String}
    {fam ftm : List (String × List String)} {l : List Review} :
    ∀ {st : QuorumAcc} {x : String},
      x ∈ (l.foldl (quorumStep resolve fam ftm) st).approvedTeams ↔
        x ∈ st.approvedTeams ∨
          ∃ rec ∈ l,
            (checkReviewerSatisfaction resolve rec.user fam ftm).satisfiedFiles ≠ [] ∧
            x ∈ (checkReviewerSatisfaction resolve rec.user fam ftm).satisfiedAsTeamMember := by
  induction l with
  | nil => simp
  | cons rec l ih =>
    intro st x
    simp only [List.foldl_cons]
    rw [ih]
    unfold quorumStep
    by_cases hc : (checkReviewerSatisfaction resolve rec.user fam ftm).satisfiedFiles.isEmpty
    · rw [if_neg (by simp [hc])]
      have hfe : (checkReviewerSatisfaction resolve rec.user fam ftm).satisfiedFiles = [] :=
        List.isEmpty_iff.1 hc
      constructor
      · rintro (hx | ⟨rec', hrec', h1, h2⟩)
        · exact Or.inl hx
        · exact Or.inr ⟨rec', List.mem_cons_of_mem _ hrec', h1, h2⟩
      · rintro (hx | ⟨rec', hrec', h1, h2⟩)
        · exact Or.inl hx
        · rcases List.mem_cons.1 hrec' with rfl | hmem
          · exact absurd hfe h1
          · exact Or.inr ⟨rec', hmem, h1, h2⟩
    · rw [if_pos (by simp [hc])]
      have hne : (checkReviewerSatisfaction resolve rec.user fam ftm).satisfiedFiles ≠ [] :=
        fun h => hc (by rw [h]; rfl)
      simp only [mem_unionUnique]
      constructor
      · rintro ((hx | hx) | ⟨rec', hrec', h1, h2⟩)
        · exact Or.inl hx
        · exact Or.inr ⟨rec, List.mem_cons_self _ _, hne, hx⟩
        · exact Or.inr ⟨rec', List.mem_cons_of_mem _ hrec', h1, h2⟩
      · rintro (hx | ⟨rec', hrec', h1, h2⟩)
        · exact Or.inl (Or.inl hx)
        · rcases List.mem_cons.1 hrec' with rfl | hmem
          · exact Or.inl (Or.inr h2)
          · exact Or.inr ⟨rec', hmem, h1, h2⟩

theorem quorumFold_summary {resolve : String → String → Option String}
    {fam ftm : List (String × List String)} {l : List Review} :
    ∀ {st : QuorumAcc},
      (l.foldl (quorumStep resolve fam ftm) st).approverSummary =
        st.approverSummary ++
          (l.filter fun rec =>
            !(checkReviewerSatisfaction resolve rec.user fam ftm).satisfiedFiles.isEmpty).map
            fun rec =>
              ⟨rec.user,
               (checkReviewerSatisfaction resolve rec.user fam ftm).satisfiedAsIndividual,
               (checkReviewerSatisfaction resolve rec.user fam ftm).satisfiedAsTeamMember,
               (checkReviewerSatisfaction resolve rec.user fam ftm).satisfiedFiles⟩ := by
  induction l with
  | nil => simp
  | cons rec l ih =>
    intro st
    simp only [List.foldl_cons]
    rw [ih]
    unfold quorumStep
    by_cases hc : (checkReviewerSatisfaction resolve rec.user fam ftm).satisfiedFiles.isEmpty
    · rw [if_neg (by simp [hc]), List.filter_cons_of_neg (by simp [hc])]
    · rw [if_pos (by simp [hc]), List.filter_cons_of_pos (by simp [hc])]
      simp

theorem quorumAggregate_of_no_approved (resolve : String → String → Option String)
    (reviews : List Review) (fam ftm : List (String × List String))
    (h : getAllApprovedReviews reviews = []) :
    quorumAggregate resolve reviews fam ftm = ⟨[], [], [], []⟩ := by
  unfold quorumAggregate
  rw [h]
  rfl

theorem requiredIndividualsOf_ne_nil {fam : List (String × List String)} :
    requiredIndividualsOf fam ≠ [] ↔ ∃ e ∈ fam, e.2 ≠ [] := by
  constructor
  · intro h
    obtain ⟨x, hx⟩ := List.exists_mem_of_ne_nil _ h
    obtain ⟨e, he, hxe⟩ := mem_requiredIndividualsOf.1 hx
    refine ⟨e, he, fun hnil => ?_⟩
    rw [hnil] at hxe
    exact List.not_mem_nil x hxe
  · rintro ⟨e, he, hne⟩ hnil
    obtain ⟨x, hx⟩ := List.exists_mem_of_ne_nil _ hne
    have hmem : x ∈ requiredIndividualsOf fam := mem_requiredIndividualsOf.2 ⟨e, he, hx⟩
    rw [hnil] at hmem
    exact List.not_mem_nil x hmem

theorem requiredTeamsOf_ne_nil {ftm : List (String × List String)} :
    requiredTeamsOf ftm ≠ [] ↔ ∃ e ∈ ftm, e.2 ≠ [] := by
  constructor
  · intro h
    obtain ⟨x, hx⟩ := List.exists_mem_of_ne_nil _ h
    obtain ⟨e, he, hxe⟩ := mem_requiredTeamsOf.1 hx
    refine ⟨e, he, fun hnil => ?_⟩
    rw [hnil] at hxe
    exact List.not_mem_nil x hxe
  · rintro ⟨e, he, hne⟩ hnil
    obtain ⟨x, hx⟩ := List.exists_mem_of_ne_nil _ hne
    have hmem : x ∈ requiredTeamsOf ftm := mem_requiredTeamsOf.2 ⟨e, he, hx⟩
    rw [hnil] at hmem
    exact List.not_mem_nil x hmem

theorem met_characterization (resolve : String → String → Option String)
    (reviews : List Review) (fam ftm : List (String × List String)) :
    (checkAllApprovalCriteriaMet resolve reviews fam ftm).allCriteriaMet = true ↔
      (∀ i ∈ requiredIndividualsOf fam,
        i ∈ (quorumAggregate resolve reviews fam ftm).approvedIndividuals) ∧
      (∀ t ∈ requiredTeamsOf ftm,
        t ∈ (quorumAggregate resolve reviews fam ftm).approvedTeams) ∧
      (requiredIndividualsOf fam ≠ [] ∨ requiredTeamsOf ftm ≠ []) := by
  unfold checkAllApprovalCriteriaMet
  by_cases hemp : (getAllApprovedReviews reviews).isEmpty
  · rw [if_pos hemp]
    have hagg := quorumAggregate_of_no_approved resolve reviews fam ftm
      (List.isEmpty_iff.1 hemp)
    constructor
    · intro h
      cases h
    · rintro ⟨h1, h2, h3 | h3⟩
      · obtain ⟨i, hi⟩ := List.exists_mem_of_ne_nil _ h3
        have := h1 i hi
        rw [hagg] at this
        exact absurd this (List.not_mem_nil i)
      · obtain ⟨t, ht⟩ := List.exists_mem_of_ne_nil _ h3
        have := h2 t ht
        rw [hagg] at this
        exact absurd this (List.not_mem_nil t)
  · rw [if_neg hemp]
    simp only [Bool.and_eq_true, Bool.or_eq_true, List.all_eq_true, Bool.not_eq_true']
    constructor
    · rintro ⟨⟨h1, h2⟩, h3⟩
      refine ⟨fun i hi => List.elem_iff.1 (h1 i hi), fun t ht => List.elem_iff.1 (h2 t ht), ?_⟩
      rcases h3 with h3 | h3
      · exact Or.inl fun hnil => by rw [hnil] at h3; cases h3
      · exact Or.inr fun hnil => by rw [hnil] at h3; cases h3
    · rintro ⟨h1, h2, h3⟩
      refine ⟨⟨fun i hi => List.elem_iff.2 (h1 i hi), fun t ht => List.elem_iff.2 (h2 t ht)⟩, ?_⟩
      rcases h3 with h3 | h3
      · exact Or.inl (by
          cases hval : (requiredIndividualsOf fam).isEmpty
          · rfl
          · exact absurd (List.isEmpty_iff.1 hval) h3)
      · exact Or.inr (by
          cases hval : (requiredTeamsOf ftm).isEmpty
          · rfl
          · exact absurd (List.isEmpty_iff.1 hval) h3)

/-! ### Claim theorems: requirement resolver -/

/-- C2: for every file, every ordered rule is evaluated and the accumulated
requirement is the set union of the individual owners and of the group owners
of all rules whose pattern matches the file path (never a single matching
rule's owners); when any rule matched, the resolved requirement is exactly
that union; `**` segments absorb any number of path segments, including zero;
concretely, with rules `backend/**/*.pdf ↦ {pdf-team}` and
`backend/**/* ↦ alice, {backend-team}`, the file `backend/report.pdf`
resolves to individuals `{alice}` and groups `{pdf-team, backend-team}`. -/
theorem c2_additive_union_resolution :
    (∀ (config : ApproversConfig) (filePath x : String),
      x ∈ (matchedOwners config filePath).1 ↔
        ∃ pc ∈ config.patterns.getD [],
          minimatch filePath pc.pattern = true ∧ x ∈ ownersList pc.owners) ∧
    (∀ (config : ApproversConfig) (filePath x : String),
      x ∈ (matchedOwners config filePath).2 ↔
        ∃ pc ∈ config.patterns.getD [],
          minimatch filePath pc.pattern = true ∧ x ∈ ownersList pc.teamOwners) ∧
    (∀ (config : ApproversConfig) (filePath : String),
      (matchedOwners config filePath).1 ≠ [] ∨ (matchedOwners config filePath).2 ≠ [] →
        resolveFileOwners config filePath = matchedOwners config filePath) ∧
    (∀ (ps ms segs : List (List Char)),
      (∀ s ∈ ms, s.head? ≠ some '.') → matchSegs ps segs = true →
        matchSegs (['*', '*'] :: ps) (ms ++ segs) = true) ∧
    resolveFileOwners scenarioConfig "backend/report.pdf" =
      (["alice"], ["pdf-team", "backend-team"]) := by
  refine ⟨fun _ _ _ => mem_matchedOwners_fst, fun _ _ _ => mem_matchedOwners_snd, ?_, ?_, ?_⟩
  · intro config filePath h
    unfold resolveFileOwners
    rw [if_neg]
    intro ⟨h1, h2⟩
    rcases h with h' | h'
    · exact h' h1
    · exact h' h2
  · exact fun _ _ _ => matchSegs_globstar_absorb
  · decide

/-- Witness for C2: the conditional conjuncts applied at concrete inputs. -/
theorem c2_additive_union_resolution_witness :
    matchSegs [['*', '*'], ['a']] ([['b']] ++ [['a']]) = true ∧
      resolveFileOwners scenarioConfig "backend/report.pdf" =
        matchedOwners scenarioConfig "backend/report.pdf" :=
  ⟨c2_additive_union_resolution.2.2.2.1 [['a']] [['b']] [['a']] (by decide) (by decide),
   c2_additive_union_resolution.2.2.1 scenarioConfig "backend/report.pdf"
      (Or.inl (by decide))⟩

/-- C3: the fallback owners become a file's requirement exactly when both
accumulators are empty after all rules were evaluated and a fallback exists;
when some accumulator is non-empty, the result is exactly the accumulated
union, so matched-rule and fallback owners never mix; and a file matching no
rule with no fallback configured resolves to empty requirement sets. -/
theorem c3_fallback_only_when_both_empty :
    ∀ (config : ApproversConfig) (filePath : String),
      ((matchedOwners config filePath).1 = [] → (matchedOwners config filePath).2 = [] →
        ∀ fb, config.fallback = some fb →
          (∀ x, x ∈ (resolveFileOwners config filePath).1 ↔ x ∈ ownersList fb.owners) ∧
          (∀ x, x ∈ (resolveFileOwners config filePath).2 ↔ x ∈ ownersList fb.teamOwners)) ∧
      ((matchedOwners config filePath).1 ≠ [] ∨ (matchedOwners config filePath).2 ≠ [] →
        resolveFileOwners config filePath = matchedOwners config filePath) ∧
      ((∀ pc ∈ config.patterns.getD [], minimatch filePath pc.pattern = false) →
        config.fallback = none → resolveFileOwners config filePath = ([], [])) := by
  intro config filePath
  refine ⟨?_, ?_, ?_⟩
  · intro h1 h2 fb hfb
    unfold resolveFileOwners
    rw [if_pos ⟨h1, h2⟩, hfb]
    constructor
    · intro x
      simp [mem_addOwners]
    · intro x
      simp [mem_addOwners]
  · intro h
    unfold resolveFileOwners
    rw [if_neg]
    intro ⟨h1, h2⟩
    rcases h with h' | h'
    · exact h' h1
    · exact h' h2
  · intro hnone hfb
    have h1 : (matchedOwners config filePath).1 = [] := by
      rw [List.eq_nil_iff_forall_not_mem]
      intro x hx
      obtain ⟨pc, hpc, hmatch, _⟩ := mem_matchedOwners_fst.1 hx
      rw [hnone pc hpc] at hmatch
      exact Bool.false_ne_true hmatch
    have h2 : (matchedOwners config filePath).2 = [] := by
      rw [List.eq_nil_iff_forall_not_mem]
      intro x hx
      obtain ⟨pc, hpc, hmatch, _⟩ := mem_matchedOwners_snd.1 hx
      rw [hnone pc hpc] at hmatch
      exact Bool.false_ne_true hmatch
    unfold resolveFileOwners
    rw [if_pos ⟨h1, h2⟩, hfb]
    show matchedOwners config filePath = ([], [])
    exact Prod.ext_iff.2 ⟨h1, h2⟩

/-- Witness for C3: the fallback branch and the no-fallback branch applied at
concrete inputs. -/
theorem c3_fallback_only_when_both_empty_witness :
    ("team-lead" ∈
      (resolveFileOwners
        { fallback := some { owners := some (.multiple ["team-lead"]) } } "readme.txt").1 ↔
      "team-lead" ∈ ownersList (some (.multiple ["team-lead"]))) ∧
    resolveFileOwners scenarioConfig "readme.txt" = ([], []) :=
  ⟨((c3_fallback_only_when_both_empty
      { fallback := some { owners := some (.multiple ["team-lead"]) } } "readme.txt").1
      (by decide) (by decide) _ rfl).1 "team-lead",
   (c3_fallback_only_when_both_empty scenarioConfig "readme.txt").2.2
      (by decide) rfl⟩

/-- C9: the two maps returned by `findApprovers` have identical key sequences;
every file of the change set appears as a key in both; the key sequence is
duplicate-free; every bound owners array is duplicate-free (a file with no
owners is bound to an empty array, not absent); and an empty change set
yields two empty maps. -/
theorem c9_resolver_maps_key_invariant :
    ∀ (files : List String) (config : ApproversConfig),
      ((findApprovers files config).1.map Prod.fst =
        (findApprovers files config).2.map Prod.fst) ∧
      (∀ f ∈ files, f ∈ (findApprovers files config).1.map Prod.fst ∧
        f ∈ (findApprovers files config).2.map Prod.fst) ∧
      ((findApprovers files config).1.map Prod.fst).Nodup ∧
      (∀ e ∈ (findApprovers files config).1, e.2.Nodup) ∧
      (∀ e ∈ (findApprovers files config).2, e.2.Nodup) ∧
      (files = [] → (findApprovers files config).1 = [] ∧
        (findApprovers files config).2 = []) := by
  intro files config
  obtain ⟨g1, g2, g3, g4, g5⟩ :=
    findApprovers_fold_invariant config files ([], []) rfl List.nodup_nil
      (by intro e he; exact absurd he (List.not_mem_nil e))
      (by intro e he; exact absurd he (List.not_mem_nil e))
  refine ⟨g1, ?_, g2, g3, g4, ?_⟩
  · intro f hf
    have h := g5 f (Or.inr hf)
    exact ⟨h, g1 ▸ h⟩
  · rintro rfl
    exact ⟨rfl, rfl⟩

/-- Witness for C9: a one-file change set, whose file appears as a key in both
returned maps. -/
theorem c9_resolver_maps_key_invariant_witness :
    "backend/report.pdf" ∈ (findApprovers ["backend/report.pdf"] scenarioConfig).1.map Prod.fst ∧
      "backend/report.pdf" ∈
        (findApprovers ["backend/report.pdf"] scenarioConfig).2.map Prod.fst :=
  (c9_resolver_maps_key_invariant ["backend/report.pdf"] scenarioConfig).2.1
    "backend/report.pdf" (by decide)

/-! ### Claim theorems: satisfaction checker -/

/-- C5: the Satisfaction Checker marks a file as satisfied by the reviewer iff
the reviewer is in that file's individual approvers or some group of that
file's team approvers is among the reviewer's resolved memberships; the result
carries the satisfied files, a flag for individual satisfaction on at least
one file, and the deduplicated list of groups through which satisfaction
occurred; a reviewer who satisfies zero files produces an empty result. -/
theorem c5_satisfaction_characterization :
    ∀ (resolve : String → String → Option String) (reviewer : String)
      (fam ftm : List (String × List String)),
      (fam.map Prod.fst).Nodup →
      (∀ p as, (p, as) ∈ fam →
        (p ∈ (checkReviewerSatisfaction resolve reviewer fam ftm).satisfiedFiles ↔
          reviewer ∈ as ∨ ∃ t ∈ mapGetD ftm p [],
            t ∈ teamMembershipsOf resolve reviewer (allTeamApprovers ftm))) ∧
      ((checkReviewerSatisfaction resolve reviewer fam ftm).satisfiedAsIndividual = true ↔
        ∃ e ∈ fam, reviewer ∈ e.2) ∧
      (∀ t, t ∈ (checkReviewerSatisfaction resolve reviewer fam ftm).satisfiedAsTeamMember ↔
        t ∈ teamMembershipsOf resolve reviewer (allTeamApprovers ftm) ∧
          ∃ e ∈ fam, t ∈ mapGetD ftm e.1 []) ∧
      (checkReviewerSatisfaction resolve reviewer fam ftm).satisfiedAsTeamMember.Nodup ∧
      ((checkReviewerSatisfaction resolve reviewer fam ftm).satisfiedFiles = [] →
        (checkReviewerSatisfaction resolve reviewer fam ftm).satisfiedAsIndividual = false ∧
          (checkReviewerSatisfaction resolve reviewer fam ftm).satisfiedAsTeamMember = []) := by
  intro resolve reviewer fam ftm hnodup
  simp only [checkReviewerSatisfaction_eq_fold]
  refine ⟨?_, ?_, ?_, ?_, ?_⟩
  · intro p as hmem
    rw [satFold_files]
    simp only [List.not_mem_nil, false_or]
    constructor
    · rintro ⟨e, he, h1, h2⟩
      have hpe : (p, e.2) ∈ fam := by
        rw [← h1]
        exact he
      have : e.2 = as := assoc_value_eq_of_nodup_keys hnodup hpe hmem
      rw [h1] at h2
      rw [← this]
      exact h2
    · intro hcond
      exact ⟨(p, as), hmem, rfl, hcond⟩
  · rw [satFold_flag]
    simp
  · intro t
    rw [satFold_teams]
    simp
  · exact satFold_teams_nodup List.nodup_nil
  · intro hempty
    constructor
    · cases hflag : (fam.foldl (satStep reviewer ftm
          (teamMembershipsOf resolve reviewer (allTeamApprovers ftm)))
          ⟨[], false, []⟩).satisfiedAsIndividual
      · rfl
      · exfalso
        obtain ⟨e, he, hrev⟩ := (satFold_flag.1 hflag).resolve_left (by simp)
        have : e.1 ∈ (fam.foldl (satStep reviewer ftm
            (teamMembershipsOf resolve reviewer (allTeamApprovers ftm)))
            ⟨[], false, []⟩).satisfiedFiles :=
          satFold_files.2 (Or.inr ⟨e, he, rfl, Or.inl hrev⟩)
        rw [hempty] at this
        exact List.not_mem_nil _ this
    · rw [List.eq_nil_iff_forall_not_mem]
      intro t ht
      obtain ⟨hm, e, he, hg⟩ := (satFold_teams.1 ht).resolve_left (by simp)
      have : e.1 ∈ (fam.foldl (satStep reviewer ftm
          (teamMembershipsOf resolve reviewer (allTeamApprovers ftm)))
          ⟨[], false, []⟩).satisfiedFiles :=
        satFold_files.2 (Or.inr ⟨e, he, rfl, Or.inr ⟨t, hg, hm⟩⟩)
      rw [hempty] at this
      exact List.not_mem_nil _ this

/-- Witness for C5: a reviewer satisfying a file through a team membership. -/
theorem c5_satisfaction_characterization_witness :
    "f" ∈ (checkReviewerSatisfaction (fun _ _ => some "active") "bob"
      [("f", ["alice"])] [("f", ["backend-team"])]).satisfiedFiles :=
  ((c5_satisfaction_characterization (fun _ _ => some "active") "bob"
      [("f", ["alice"])] [("f", ["backend-team"])] (by decide)).1 "f" ["alice"]
      (by decide)).2
    (Or.inr ⟨"backend-team", by decide, by decide⟩)

/-- C6: a failed membership lookup is treated identically to a negative one —
only whether a lookup reports state `active` matters to the Satisfaction
Checker, totally and without any propagation of the failure, and likewise for
the whole quorum evaluation; and each distinct group of the requirement map is
looked up exactly once per Satisfaction Checker invocation. -/
theorem c6_lookup_failure_degrades :
    (∀ (resolve resolve' : String → String → Option String) (reviewer : String)
        (fam ftm : List (String × List String)),
      (∀ team, resolve team reviewer = some "active" ↔
        resolve' team reviewer = some "active") →
      checkReviewerSatisfaction resolve reviewer fam ftm =
        checkReviewerSatisfaction resolve' reviewer fam ftm) ∧
    (∀ ftm : List (String × List String), (membershipLookups ftm).Nodup) ∧
    (∀ (ftm : List (String × List String)) (t : String),
      t ∈ membershipLookups ftm ↔ ∃ e ∈ ftm, t ∈ e.2) ∧
    (∀ (resolve resolve' : String → String → Option String) (reviews : List Review)
        (fam ftm : List (String × List String)),
      (∀ team r, resolve team r = some "active" ↔ resolve' team r = some "active") →
      checkAllApprovalCriteriaMet resolve reviews fam ftm =
        checkAllApprovalCriteriaMet resolve' reviews fam ftm) := by
  refine ⟨?_, ?_, ?_, ?_⟩
  · intro resolve resolve' reviewer fam ftm h
    exact checkReviewerSatisfaction_congr fam ftm h
  · intro ftm
    exact allTeamApprovers_nodup
  · intro ftm t
    exact mem_allTeamApprovers
  · intro resolve resolve' reviews fam ftm h
    exact checkAllApprovalCriteriaMet_congr reviews fam ftm h

/-- Witness for C6: an always-failing resolver gives the same result as an
always-pending one. -/
theorem c6_lookup_failure_degrades_witness :
    checkReviewerSatisfaction (fun _ _ => none) "bob"
        [("f", ["alice"])] [("f", ["team-x"])] =
      checkReviewerSatisfaction (fun _ _ => some "pending") "bob"
        [("f", ["alice"])] [("f", ["team-x"])] :=
  c6_lookup_failure_degrades.1 (fun _ _ => none) (fun _ _ => some "pending") "bob"
    [("f", ["alice"])] [("f", ["team-x"])] (fun _ => by simp)

/-- C10: a lookup that succeeds with a state other than `active` contributes
no membership — the memberships are exactly the groups resolved with state
`active`, and replacing a non-`active` successful lookup by a failed one does
not change the Satisfaction Checker's result. -/
theorem c10_nonactive_state_is_nonmember :
    (∀ (resolve : String → String → Option String) (reviewer t : String)
        (teams : List String),
      t ∈ teamMembershipsOf resolve reviewer teams ↔
        t ∈ teams ∧ resolve t reviewer = some "active") ∧
    (∀ (resolve : String → String → Option String) (reviewer team0 s : String)
        (fam ftm : List (String × List String)),
      s ≠ "active" → resolve team0 reviewer = some s →
      checkReviewerSatisfaction resolve reviewer fam ftm =
        checkReviewerSatisfaction
          (fun t r => if t = team0 ∧ r = reviewer then none else resolve t r)
          reviewer fam ftm) := by
  refine ⟨fun _ _ _ _ => mem_teamMembershipsOf, ?_⟩
  intro resolve reviewer team0 s fam ftm hs hres
  apply checkReviewerSatisfaction_congr
  intro team
  by_cases ht : team = team0
  · subst ht
    simp [hres, hs]
  · simp [ht]

/-- Witness for C10: a `pending` membership state behaves as a failed lookup. -/
theorem c10_nonactive_state_is_nonmember_witness :
    checkReviewerSatisfaction (fun _ _ => some "pending") "bob"
        [("f", ["alice"])] [("f", ["team-x"])] =
      checkReviewerSatisfaction
        (fun t r => if t = "team-x" ∧ r = "bob" then none else some "pending") "bob"
        [("f", ["alice"])] [("f", ["team-x"])] :=
  c10_nonactive_state_is_nonmember.2 (fun _ _ => some "pending") "bob" "team-x" "pending"
    [("f", ["alice"])] [("f", ["team-x"])] (by decide) rfl

/-! ### Claim theorems: review collapse and quorum evaluator -/

/-- C4: the review collapse keeps exactly one live record per reviewer — the
record bound to a user is the first of that user's records achieving the
maximal submission time (`List.argmax`: latest submission time, stable input
order as tiebreak) — and a reviewer whose live record is not approved is
absent from the approved-review list, even if an earlier record of theirs was
approved. -/
theorem c4_live_record_collapse :
    ∀ (rs : List Review) (u : String),
      ((latestReviewsByUser rs).map Prod.fst).Nodup ∧
      (lookupUser (latestReviewsByUser rs) u =
        (rs.filter (fun r => r.user == u)).argmax Review.submittedAt) ∧
      (∀ rec, lookupUser (latestReviewsByUser rs) u = some rec → rec.state ≠ "APPROVED" →
        ∀ r' ∈ getAllApprovedReviews rs, r'.user ≠ u) := by
  intro rs u
  refine ⟨latest_keys_nodup rs, lookupUser_latest_argmax rs u, ?_⟩
  intro rec hrec hstate r' hr' hru
  obtain ⟨⟨e, he, he2⟩, hst⟩ := mem_getAllApprovedReviews.1 hr'
  have h1 := latest_user_eq_key rs e he
  rw [he2] at h1
  have hk : e.1 = u := h1 ▸ hru
  have heu : (u, r') ∈ latestReviewsByUser rs := by
    have heq : e = (u, r') := Prod.ext_iff.2 ⟨hk, he2⟩
    rw [← heq]
    exact he
  unfold lookupUser at hrec
  cases hfind : (latestReviewsByUser rs).find? (fun e => e.1 == u) with
  | none =>
    rw [hfind] at hrec
    cases hrec
  | some e0 =>
    rw [hfind] at hrec
    have he0mem := List.mem_of_find?_eq_some hfind
    have he0key : e0.1 = u := by
      simpa using List.find?_some hfind
    have he0rec : e0.2 = rec := by
      simpa using hrec
    have hval : r' = e0.2 := by
      apply assoc_value_eq_of_nodup_keys (latest_keys_nodup rs) heu
      have heq0 : e0 = (u, e0.2) := Prod.ext_iff.2 ⟨he0key, rfl⟩
      rw [← heq0]
      exact he0mem
    rw [he0rec] at hval
    rw [hval] at hst
    exact hstate hst

/-- Witness for C4: a reviewer whose later record revokes an earlier approval
is absent from the approved-review list. -/
theorem c4_live_record_collapse_witness :
    "dana" ∉ (getAllApprovedReviews
      [⟨"dana", "APPROVED", 1⟩, ⟨"dana", "CHANGES_REQUESTED", 2⟩]).map Review.user := by
  intro hmem
  obtain ⟨r', hr', hu⟩ := List.mem_map.1 hmem
  exact (c4_live_record_collapse
      [⟨"dana", "APPROVED", 1⟩, ⟨"dana", "CHANGES_REQUESTED", 2⟩] "dana").2.2
    ⟨"dana", "CHANGES_REQUESTED", 2⟩ (by decide) (by decide) r' hr' hu

/-- C1: `allCriteriaMet` is true iff every individual in the union of the
per-file individual requirements is among the computed approved individuals,
every group in the union of the per-file group requirements is among the
computed approved groups, and at least one of the two required unions is
non-empty; in particular, when every file's requirement sets are empty, the
result is false regardless of the review records. -/
theorem c1_met_iff_required_covered :
    ∀ (resolve : String → String → Option String) (reviews : List Review)
      (fam ftm : List (String × List String)),
      ((checkAllApprovalCriteriaMet resolve reviews fam ftm).allCriteriaMet = true ↔
        (∀ i, (∃ e ∈ fam, i ∈ e.2) →
          i ∈ (quorumAggregate resolve reviews fam ftm).approvedIndividuals) ∧
        (∀ t, (∃ e ∈ ftm, t ∈ e.2) →
          t ∈ (quorumAggregate resolve reviews fam ftm).approvedTeams) ∧
        ((∃ e ∈ fam, e.2 ≠ []) ∨ (∃ e ∈ ftm, e.2 ≠ []))) ∧
      ((∀ e ∈ fam, e.2 = []) → (∀ e ∈ ftm, e.2 = []) →
        (checkAllApprovalCriteriaMet resolve reviews fam ftm).allCriteriaMet = false) := by
  intro resolve reviews fam ftm
  have hiff := met_characterization resolve reviews fam ftm
  constructor
  · rw [hiff]
    constructor
    · rintro ⟨h1, h2, h3⟩
      refine ⟨fun i hi => h1 i (mem_requiredIndividualsOf.2 hi),
        fun t ht => h2 t (mem_requiredTeamsOf.2 ht), ?_⟩
      rcases h3 with h3 | h3
      · exact Or.inl (requiredIndividualsOf_ne_nil.1 h3)
      · exact Or.inr (requiredTeamsOf_ne_nil.1 h3)
    · rintro ⟨h1, h2, h3⟩
      refine ⟨fun i hi => h1 i (mem_requiredIndividualsOf.1 hi),
        fun t ht => h2 t (mem_requiredTeamsOf.1 ht), ?_⟩
      rcases h3 with h3 | h3
      · exact Or.inl (requiredIndividualsOf_ne_nil.2 h3)
      · exact Or.inr (requiredTeamsOf_ne_nil.2 h3)
  · intro hfam hftm
    have hreq1 : requiredIndividualsOf fam = [] := by
      by_contra hne
      obtain ⟨e, he, hne2⟩ := requiredIndividualsOf_ne_nil.1 hne
      exact hne2 (hfam e he)
    have hreq2 : requiredTeamsOf ftm = [] := by
      by_contra hne
      obtain ⟨e, he, hne2⟩ := requiredTeamsOf_ne_nil.1 hne
      exact hne2 (hftm e he)
    cases hmet : (checkAllApprovalCriteriaMet resolve reviews fam ftm).allCriteriaMet
    · rfl
    · exfalso
      rcases (hiff.1 hmet).2.2 with h | h
      · exact h hreq1
      · exact h hreq2

/-- Witness for C1: empty requirement sets give `met = false` even with an
approved review on file. -/
theorem c1_met_iff_required_covered_witness :
    (checkAllApprovalCriteriaMet (fun _ _ => some "active")
      [⟨"bob", "APPROVED", 1⟩] [("f", [])] [("f", [])]).allCriteriaMet = false :=
  (c1_met_iff_required_covered (fun _ _ => some "active")
      [⟨"bob", "APPROVED", 1⟩] [("f", [])] [("f", [])]).2
    (by decide) (by decide)

/-- C7: `allCriteriaMet` is monotone in the live-approved reviewers — appending
one approved review record for a reviewer who was not previously live-approved
never flips the flag from true to false. -/
theorem c7_met_monotone :
    ∀ (resolve : String → String → Option String) (rs : List Review) (r : Review)
      (fam ftm : List (String × List String)),
      r.state = "APPROVED" →
      (∀ rec ∈ getAllApprovedReviews rs, rec.user ≠ r.user) →
      (checkAllApprovalCriteriaMet resolve rs fam ftm).allCriteriaMet = true →
      (checkAllApprovalCriteriaMet resolve (rs ++ [r]) fam ftm).allCriteriaMet = true := by
  intro resolve rs r fam ftm hstate hnew hmet
  rw [met_characterization] at hmet ⊢
  obtain ⟨h1, h2, h3⟩ := hmet
  have hsub := getAllApprovedReviews_concat_superset hnew
  refine ⟨?_, ?_, h3⟩
  · intro i hi
    have hx := h1 i hi
    unfold quorumAggregate at hx ⊢
    rw [quorumFold_inds] at hx ⊢
    rcases hx with hx | ⟨rec, hrec, hh⟩
    · exact Or.inl hx
    · exact Or.inr ⟨rec, hsub rec hrec, hh⟩
  · intro t ht
    have hx := h2 t ht
    unfold quorumAggregate at hx ⊢
    rw [quorumFold_teams] at hx ⊢
    rcases hx with hx | ⟨rec, hrec, hh⟩
    · exact Or.inl hx
    · exact Or.inr ⟨rec, hsub rec hrec, hh⟩

/-- Witness for C7: a satisfied quorum stays satisfied after a fresh approved
review arrives. -/
theorem c7_met_monotone_witness :
    (checkAllApprovalCriteriaMet (fun _ _ => none)
      ([⟨"alice", "APPROVED", 1⟩] ++ [⟨"bob", "APPROVED", 2⟩])
      [("f", ["alice"])] [("f", [])]).allCriteriaMet = true :=
  c7_met_monotone (fun _ _ => none) [⟨"alice", "APPROVED", 1⟩] ⟨"bob", "APPROVED", 2⟩
    [("f", ["alice"])] [("f", [])] (by decide) (by decide) (by decide)

/-- Counterexample to C8 as stated: `bob` is live-approved, yet — because his
satisfaction covers zero files — the returned summary contains no entry for
him. -/
theorem c8_counterexample_no_entry :
    "bob" ∈ (getAllApprovedReviews [⟨"bob", "APPROVED", 1⟩]).map Review.user ∧
      (checkAllApprovalCriteriaMet (fun _ _ => none) [⟨"bob", "APPROVED", 1⟩]
        [("f", ["alice"])] [("f", [])]).approverSummary = [] := by
  constructor
  · decide
  · decide

/-- C8 (amended): the returned summary contains one entry per live-approved
reviewer whose satisfaction covers at least one file — in input order,
regardless of whether that reviewer's satisfaction changes the aggregate — and
no entry for a live-approved reviewer who satisfies zero files. -/
theorem c8_amended_summary_entries :
    ∀ (resolve : String → String → Option String) (reviews : List Review)
      (fam ftm : List (String × List String)),
      (checkAllApprovalCriteriaMet resolve reviews fam ftm).approverSummary =
        ((getAllApprovedReviews reviews).filter fun rec =>
          !(checkReviewerSatisfaction resolve rec.user fam ftm).satisfiedFiles.isEmpty).map
          fun rec =>
            ⟨rec.user,
             (checkReviewerSatisfaction resolve rec.user fam ftm).satisfiedAsIndividual,
             (checkReviewerSatisfaction resolve rec.user fam ftm).satisfiedAsTeamMember,
             (checkReviewerSatisfaction resolve rec.user fam ftm).satisfiedFiles⟩ := by
  intro resolve reviews fam ftm
  unfold checkAllApprovalCriteriaMet
  by_cases hemp : (getAllApprovedReviews reviews).isEmpty
  · rw [if_pos hemp, List.isEmpty_iff.1 hemp]
    rfl
  · rw [if_neg hemp]
    show (quorumAggregate resolve reviews fam ftm).approverSummary = _
    unfold quorumAggregate
    rw [quorumFold_summary]
    simp

end AdvancedCodeowners
